import Mathlib

/-!
A shallow embedding of `pyclip.py`, a command-line utility that extracts
time-bounded clips from a media file by invoking an external transcoder
(`ffmpeg`) as a subprocess.  The embedding models:

* `clipCommand` — the argument-list builder of the `clip` function
  (lines 98–110 of the source);
* `splitLast` / `decomposeFilename` — the semantics of
  `FILENAME_PATTERN.match` (the regex `(?P<name>^.*)\.(?P<extension>.*$)`,
  applied with `re.match`): the name group is greedy, `.` does not match
  a newline, and `$` matches at the end of the string or just before a
  single trailing newline;
* `basename`, `dirname`, `joinPath` — POSIX `os.path.basename`,
  `os.path.dirname`, `os.path.join` (two-argument form) on strings;
* `validateTimestamps` / `pairUp` — the timestamp count check
  (line 146) and the pairing `zip(it, it)` of lines 149–150;
* `resolveOutput` — the output name/extension resolution of
  lines 159–172;
* `pad2` / `clipOutfile` — the per-clip output path of lines 180–183,
  with `pad2` embedding the Python format spec used there, which pads the
  decimal representation on the left with zeros to a minimum width of 2;
* `runClips` / `mainRun` — the sequential clip loop of lines 177–186,
  with the external process modelled as a function from argument lists to
  exit statuses, and `subprocess.run(..., check=True)` raising on any
  non-zero status.
-/

/-- Argument-list builder of `clip` (source lines 98–110): the base
invocation followed by conditional flag groups and the output path. -/
def clipCommand (infile outfile start_timestamp end_timestamp : String)
    (no_audio no_video overwrite copy : Bool) : List String :=
  let command := ["ffmpeg", "-loglevel", "fatal", "-i", infile,
                  "-ss", start_timestamp, "-to", end_timestamp]
  let command := if copy then command ++ ["-c", "copy"] else command
  let command := if no_audio then command ++ ["-an"] else command
  let command := if no_video then command ++ ["-vn"] else command
  let command := if overwrite then command ++ ["-y"] else command ++ ["-n"]
  command ++ [outfile]

/-- Split a character list at the last occurrence of `sep`: returns the
characters before that occurrence and the characters after it, or `none`
when `sep` does not occur. -/
def splitLast (sep : Char) : List Char → Option (List Char × List Char)
  | [] => none
  | c :: rest =>
    match splitLast sep rest with
    | some (n, e) => some (c :: n, e)
    | none => if c = sep then some ([], rest) else none

/-- Semantics of `FILENAME_PATTERN.match` (source lines 22–26) on a string:
the pattern `(?P<name>^.*)\.(?P<extension>.*$)` matches exactly when the
string, after discarding at most one trailing newline, is newline-free and
contains a dot; the greedy name group then takes everything before the last
dot and the extension group everything after it. -/
def decomposeFilename (s : String) : Option (String × String) :=
  let cs := s.data
  let core := if cs.getLast? = some '\n' then cs.dropLast else cs
  if core.contains '\n' then none
  else
    match splitLast '.' core with
    | some (n, e) => some (String.mk n, String.mk e)
    | none => none

/-- POSIX `os.path.basename`: everything after the last slash. -/
def basename (p : String) : String :=
  match splitLast '/' p.data with
  | some (_, e) => String.mk e
  | none => p

/-- POSIX `os.path.dirname`: everything up to the last slash, with
trailing slashes stripped unless the result consists only of slashes. -/
def dirname (p : String) : String :=
  match splitLast '/' p.data with
  | none => ""
  | some (n, _) =>
    let head := n ++ ['/']
    if head.all (fun c => c == '/') then String.mk head
    else String.mk ((head.reverse.dropWhile (fun c => c == '/')).reverse)

/-- POSIX `os.path.join` on two components: the second wins when it is
absolute; otherwise it is appended, inserting a slash unless the first
component is empty or already ends with a slash. -/
def joinPath (a b : String) : String :=
  if b.data.head? = some '/' then b
  else if a.data = [] ∨ a.data.getLast? = some '/' then a ++ b
  else a ++ "/" ++ b

/-- Pairing of the flat timestamp list, as performed by
`zip(arg_timestamps, arg_timestamps)` over a single iterator
(source lines 149–150): consecutive elements are consumed two at a time,
and a trailing odd element is dropped. -/
def pairUp {α : Type} : List α → List (α × α)
  | [] => []
  | [_] => []
  | a :: b :: rest => (a, b) :: pairUp rest

/-- The Timestamp Pair Validator: the count check of source line 146
(`len < 2 or len % 2 != 0`), failing with the observed count, followed by
the pairing of lines 149–150. -/
def validateTimestamps (ts : List String) : Except Nat (List (String × String)) :=
  if ts.length < 2 ∨ ts.length % 2 ≠ 0 then .error ts.length
  else .ok (pairUp ts)

/-- Output name/extension resolution of source lines 159–172.  The
`isdir` argument models `os.path.isdir` on the ambient file system.
Errors carry the exact `clparser.error` message of the source. -/
def resolveOutput (isdir : String → Bool) (infile : String)
    (outfile : Option String) : Except String (String × String) :=
  match outfile with
  | none =>
    match decomposeFilename (basename infile) with
    | none => .error "Output file name could not be generated from input file"
    | some (n, e) => .ok (n ++ "_clip", e)
  | some o =>
    if isdir o then
      match decomposeFilename (basename infile) with
      | none => .error "Output file name could not be generated from input file"
      | some (n, e) => .ok (joinPath o (n ++ "_clip"), e)
    else
      match decomposeFilename (basename o) with
      | none => .error "Output file name could not be parsed"
      | some (n, e) => .ok (joinPath (dirname o) n, e)

/-- The Python integer format spec `02` used at source line 181: the
decimal representation padded on the left with zeros to width 2. -/
def pad2 (n : Nat) : String :=
  String.mk (List.replicate (2 - (toString n).length) '0') ++ toString n

/-- Per-clip output path of source lines 180–183: a numbered suffix when
there is more than one clip, and no suffix for a single clip. -/
def clipOutfile (name ext : String) (total nb : Nat) : String :=
  if 1 < total then name ++ "_" ++ pad2 nb ++ "." ++ ext
  else name ++ "." ++ ext

/-- Outcome of a run: a pre-flight usage error (`clparser.error`, exits
non-zero), a transcoder failure (`CalledProcessError` from
`subprocess.run(..., check=True)`, carrying the exit status, exits
non-zero), or success. -/
inductive Outcome where
  | usageError (msg : String)
  | transcoderError (status : Int)
  | ok
deriving DecidableEq, Repr

/-- The clip loop of source lines 177–186.  `exec` models the external
transcoder: it maps an argument list to the process exit status.  Returns
the list of argument lists actually executed, in order, together with the
outcome; a non-zero status stops the loop at once. -/
def runClips (exec : List String → Int) (infile name ext : String)
    (na nv ow cp : Bool) (total : Nat) :
    List (String × String) → Nat → List (List String) × Outcome
  | [], _ => ([], .ok)
  | (s, e) :: rest, nb =>
    let outfile := clipOutfile name ext total nb
    let cmd := clipCommand infile outfile s e na nv ow cp
    if exec cmd = 0 then
      let r := runClips exec infile name ext na nv ow cp total rest (nb + 1)
      (cmd :: r.1, r.2)
    else ([cmd], .transcoderError (exec cmd))

/-- The parsed command-line arguments fed to `main` by `argparse`. -/
structure Args where
  infile : String
  outfile : Option String
  noaudio : Bool
  novideo : Bool
  overwrite : Bool
  copy : Bool
  timestamps : List String

/-- The core of `main` (source lines 146–186): timestamp count check,
output resolution, then the sequential clip loop.  Returns the list of
transcoder invocations actually performed together with the outcome. -/
def mainRun (exec : List String → Int) (isdir : String → Bool)
    (args : Args) : List (List String) × Outcome :=
  match validateTimestamps args.timestamps with
  | .error n => ([], .usageError ("Mismatched number of timestamps : " ++ toString n))
  | .ok pairs =>
    match resolveOutput isdir args.infile args.outfile with
    | .error msg => ([], .usageError msg)
    | .ok (name, ext) =>
      runClips exec args.infile name ext args.noaudio args.novideo
        args.overwrite args.copy (args.timestamps.length / 2) pairs 1

/-! ### Helper lemmas -/

theorem pairUp_length {α : Type} (l : List α) :
    (pairUp l).length = l.length / 2 := by
  induction l using pairUp.induct
  all_goals simp_all [pairUp]
  all_goals omega

theorem pairUp_getElem {α : Type} (l : List α) (k : Nat) :
    (pairUp l)[k]? =
      (l[2 * k]?).bind (fun a => (l[2 * k + 1]?).map (fun b => (a, b))) := by
  induction l using pairUp.induct generalizing k with
  | case1 => simp [pairUp]
  | case2 a =>
    have h1 : ([a] : List α)[2 * k + 1]? = none :=
      List.getElem?_eq_none (by simp only [List.length_singleton]; omega)
    cases h0 : ([a] : List α)[2 * k]? <;> simp [pairUp, h0, h1]
  | case3 a b rest ih =>
    cases k with
    | zero => simp [pairUp]
    | succ k =>
      have e1 : 2 * (k + 1) = 2 * k + 1 + 1 := by omega
      rw [e1]
      simp only [pairUp, List.getElem?_cons_succ]
      exact ih k

/-! ### C1: exact shape of the transcoder argument list -/

/-- C1.  For every ClipRequest, the built argument list is exactly the
base invocation followed by the stream-copy group iff copy is set, the
audio-suppression flag iff no-audio is set, the video-suppression flag
iff no-video is set, exactly one of the overwrite or no-clobber flags,
and the output path last; the concrete example instantiates it. -/
theorem clipCommand_spec (infile outfile s e : String) (na nv ow cp : Bool) :
    clipCommand infile outfile s e na nv ow cp =
      ["ffmpeg", "-loglevel", "fatal", "-i", infile, "-ss", s, "-to", e]
        ++ (if cp then ["-c", "copy"] else [])
        ++ (if na then ["-an"] else [])
        ++ (if nv then ["-vn"] else [])
        ++ (if ow then ["-y"] else ["-n"])
        ++ [outfile] ∧
    clipCommand "a.mp4" "a_clip.mp4" "5" "10" true false false true =
      ["ffmpeg", "-loglevel", "fatal", "-i", "a.mp4", "-ss", "5", "-to", "10",
       "-c", "copy", "-an", "-n", "a_clip.mp4"] := by
  refine ⟨?_, rfl⟩
  cases na <;> cases nv <;> cases ow <;> cases cp <;> simp [clipCommand]

/-! ### C2: even token counts validate into ordered pairs -/

/-- C2.  For every token sequence of even length at least 2 the validator
succeeds, yields exactly half as many pairs, and the k-th pair (0-based)
is exactly (tokens[2k], tokens[2k+1]) — consumed in input order with no
reordering or swapping. -/
theorem validateTimestamps_even_ok (ts : List String)
    (h2 : 2 ≤ ts.length) (he : ts.length % 2 = 0) :
    validateTimestamps ts = .ok (pairUp ts) ∧
    (pairUp ts).length = ts.length / 2 ∧
    ∀ k : Nat, (pairUp ts)[k]? =
      (ts[2 * k]?).bind (fun a => (ts[2 * k + 1]?).map (fun b => (a, b))) := by
  refine ⟨?_, pairUp_length ts, fun k => pairUp_getElem ts k⟩
  unfold validateTimestamps
  rw [if_neg (by omega)]

/-- Witness for C2 at the concrete sequence [a, b, c, d]. -/
theorem validateTimestamps_even_ok_witness :
    validateTimestamps ["a", "b", "c", "d"] = .ok (pairUp ["a", "b", "c", "d"]) ∧
    (pairUp ["a", "b", "c", "d"]).length = 2 := by
  have h := validateTimestamps_even_ok ["a", "b", "c", "d"] (by decide) (by decide)
  exact ⟨h.1, h.2.1⟩

/-! ### C3: mismatched token counts abort before any invocation -/

/-- C3.  For every token sequence of odd length or length below 2 the
validator fails with the observed count, and the whole run terminates
with a usage error (non-zero exit) having performed no transcoder
invocation at all. -/
theorem mainRun_mismatched_count (exec : List String → Int)
    (isdir : String → Bool) (args : Args)
    (h : args.timestamps.length < 2 ∨ args.timestamps.length % 2 ≠ 0) :
    validateTimestamps args.timestamps = .error args.timestamps.length ∧
    mainRun exec isdir args =
      ([], .usageError ("Mismatched number of timestamps : " ++
        toString args.timestamps.length)) := by
  have hv : validateTimestamps args.timestamps = .error args.timestamps.length := by
    unfold validateTimestamps
    rw [if_pos h]
  exact ⟨hv, by simp [mainRun, hv]⟩

/-- Witness for C3 at the concrete one-token sequence [x]. -/
theorem mainRun_mismatched_count_witness :
    validateTimestamps ["x"] = .error 1 ∧
    mainRun (fun _ => 0) (fun _ => false)
        ⟨"a.mp4", none, false, false, false, false, ["x"]⟩ =
      ([], .usageError "Mismatched number of timestamps : 1") :=
  mainRun_mismatched_count (fun _ => 0) (fun _ => false)
    ⟨"a.mp4", none, false, false, false, false, ["x"]⟩ (by decide)

/-! ### C4: numbered output paths -/

/-- C4.  The output path of the i-th clip carries the zero-padded
two-digit counter suffix exactly when the total pair count exceeds 1,
and no numeric suffix when it is 1; the concrete run on movie.mp4 with
two pairs produces movie_clip_01.mp4 and movie_clip_02.mp4. -/
theorem clipOutfile_numbering (name ext : String) (i : Nat) :
    (∀ total : Nat, 1 < total →
       clipOutfile name ext total i = name ++ "_" ++ pad2 i ++ "." ++ ext) ∧
    clipOutfile name ext 1 i = name ++ "." ++ ext ∧
    (mainRun (fun _ => 0) (fun _ => false)
        ⟨"movie.mp4", none, false, false, false, false,
         ["00:00:10", "00:00:20", "00:01:00", "00:01:30"]⟩).1 =
      [["ffmpeg", "-loglevel", "fatal", "-i", "movie.mp4", "-ss", "00:00:10",
        "-to", "00:00:20", "-n", "movie_clip_01.mp4"],
       ["ffmpeg", "-loglevel", "fatal", "-i", "movie.mp4", "-ss", "00:01:00",
        "-to", "00:01:30", "-n", "movie_clip_02.mp4"]] := by
  refine ⟨fun total ht => ?_, ?_, rfl⟩
  · simp [clipOutfile, ht]
  · simp [clipOutfile]

/-- Witness for C4 at counter 1 with 2 total pairs. -/
theorem clipOutfile_numbering_witness :
    clipOutfile "movie_clip" "mp4" 2 1 =
      "movie_clip" ++ "_" ++ pad2 1 ++ "." ++ "mp4" :=
  (clipOutfile_numbering "movie_clip" "mp4" 1).1 2 (by decide)

/-! ### C5: default output naming from the input file -/

/-- C5.  When no output path is given, or the output path is an existing
directory, the resolved base name is the input basename's decomposed name
suffixed with the clip marker (joined with the output directory when one
was given) and the resolved extension is the input file's; the two
concrete examples instantiate both branches. -/
theorem resolveOutput_derived_from_input (isdir : String → Bool)
    (infile : String) (outfile : Option String) (n e : String)
    (hdec : decomposeFilename (basename infile) = some (n, e))
    (hdir : outfile = none ∨ ∃ d, outfile = some d ∧ isdir d = true) :
    resolveOutput isdir infile outfile =
      .ok ((match outfile with
            | none => n ++ "_clip"
            | some d => joinPath d (n ++ "_clip")), e) ∧
    resolveOutput isdir "movie.mp4" none = .ok ("movie_clip", "mp4") ∧
    resolveOutput (fun d => d == "out/") "movie.mp4" (some "out/") =
      .ok ("out/movie_clip", "mp4") := by
  refine ⟨?_, rfl, rfl⟩
  rcases hdir with h | ⟨d, rfl, hd⟩
  · subst h
    simp [resolveOutput, hdec]
  · simp [resolveOutput, hd, hdec]

/-- Witness for C5 at input movie.mp4 with existing output directory. -/
theorem resolveOutput_derived_from_input_witness :
    resolveOutput (fun d => d == "out/") "movie.mp4" (some "out/") =
      .ok ("out/movie_clip", "mp4") :=
  (resolveOutput_derived_from_input (fun d => d == "out/") "movie.mp4"
    (some "out/") "movie" "mp4" rfl (Or.inr ⟨"out/", rfl, rfl⟩)).2.2

/-! ### C6: explicit output file naming -/

/-- C6.  When an explicit output file path is given (not an existing
directory), the resolved base name is the output path's directory joined
with the output basename's decomposed name, and the resolved extension
is the output path's decomposed extension — the input file plays no part
in the conclusion; the example resolves result.mkv from the output. -/
theorem resolveOutput_explicit_outfile (isdir : String → Bool)
    (infile o n e : String)
    (hnd : isdir o = false)
    (hdec : decomposeFilename (basename o) = some (n, e)) :
    resolveOutput isdir infile (some o) = .ok (joinPath (dirname o) n, e) ∧
    resolveOutput (fun _ => false) "movie.mp4" (some "result.mkv") =
      .ok ("result", "mkv") ∧
    clipOutfile "result" "mkv" 1 1 = "result.mkv" := by
  refine ⟨?_, rfl, rfl⟩
  simp [resolveOutput, hnd, hdec]

/-- Witness for C6 at explicit output result.mkv. -/
theorem resolveOutput_explicit_outfile_witness :
    resolveOutput (fun _ => false) "movie.mp4" (some "result.mkv") =
      .ok (joinPath (dirname "result.mkv") "result", "mkv") :=
  (resolveOutput_explicit_outfile (fun _ => false) "movie.mp4" "result.mkv"
    "result" "mkv" rfl rfl).1

/-! ### C7: the filename decomposer splits at the last dot -/

theorem splitLast_eq_none (sep : Char) (l : List Char) :
    splitLast sep l = none ↔ sep ∉ l := by
  induction l with
  | nil => simp [splitLast]
  | cons c rest ih =>
    rw [splitLast]
    cases hr : splitLast sep rest with
    | some p =>
      obtain ⟨n, e⟩ := p
      have hmem : sep ∈ rest := by
        by_contra hmem
        rw [ih.2 hmem] at hr
        exact Option.noConfusion hr
      simp [hmem]
    | none =>
      have hnm : sep ∉ rest := ih.1 hr
      by_cases hc : c = sep
      · simp [hc]
      · simp [hc, hnm]
        exact fun hh => hc hh.symm

theorem splitLast_spec (sep : Char) :
    ∀ (l n e : List Char), splitLast sep l = some (n, e) →
      l = n ++ sep :: e ∧ sep ∉ e := by
  intro l
  induction l with
  | nil => intro n e h; exact Option.noConfusion h
  | cons c rest ih =>
    intro n e h
    rw [splitLast] at h
    cases hr : splitLast sep rest with
    | some p =>
      obtain ⟨n', e'⟩ := p
      rw [hr] at h
      obtain ⟨rfl, rfl⟩ : n = c :: n' ∧ e = e' := by
        refine ⟨?_, ?_⟩ <;> injection h with h1 <;> injection h1
        all_goals simp_all
      obtain ⟨h1, h2⟩ := ih n' e hr
      exact ⟨by rw [h1]; rfl, h2⟩
    | none =>
      rw [hr] at h
      by_cases hc : c = sep
      · rw [if_pos hc] at h
        obtain ⟨rfl, rfl⟩ : n = [] ∧ e = rest := by
          refine ⟨?_, ?_⟩ <;> injection h with h1 <;> injection h1
          all_goals simp_all
        exact ⟨by simp [hc], (splitLast_eq_none sep _).1 hr⟩
      · rw [if_neg hc] at h
        exact Option.noConfusion h

/-- C7 (counterexample).  The string a.b followed by a newline contains a
dot, yet the decomposer matches and returns name a and extension b,
whose rejoining differs from the original string: the round-trip law of
the claim fails on it. -/
theorem decomposeFilename_roundtrip_cex :
    "a.b\n".data.contains '.' = true ∧
    decomposeFilename "a.b\n" = some ("a", "b") ∧
    "a" ++ "." ++ "b" ≠ "a.b\n" := by
  refine ⟨rfl, rfl, by decide⟩

/-- C7 (amended).  For any string containing no newline character, the
decomposer succeeds exactly when the string contains a dot, and every
successful decomposition splits at the last literal dot: rejoining name,
dot and extension reproduces the original string, and the extension
contains no further dot.  For any string with no dot (newline-free or
not, by the success criterion) decomposition fails. -/
theorem decomposeFilename_last_dot (s : String)
    (hnl : s.data.contains '\n' = false) :
    (decomposeFilename s).isSome = s.data.contains '.' ∧
    ∀ n e : String, decomposeFilename s = some (n, e) →
      n ++ "." ++ e = s ∧ e.data.contains '.' = false := by
  have hmem : '\n' ∉ s.data := by
    intro hm
    rw [(by simpa using hm : s.data.contains '\n' = true)] at hnl
    exact Bool.noConfusion hnl
  have hlast : s.data.getLast? ≠ some '\n' := fun h =>
    hmem (List.mem_of_getLast?_eq_some h)
  have hdef : decomposeFilename s =
      match splitLast '.' s.data with
      | some (n, e) => some (String.mk n, String.mk e)
      | none => none := by
    simp only [decomposeFilename]
    rw [if_neg hlast]
    rw [if_neg (by rw [hnl]; exact Bool.false_ne_true)]
  constructor
  · cases hsp : splitLast '.' s.data with
    | some p =>
      obtain ⟨n, e⟩ := p
      have hin : '.' ∈ s.data := by
        rw [(splitLast_spec '.' s.data n e hsp).1]
        simp
      rw [hdef, hsp]
      simpa using hin
    | none =>
      have hout : '.' ∉ s.data := (splitLast_eq_none '.' s.data).1 hsp
      rw [hdef, hsp]
      simpa using hout
  · intro n e h
    rw [hdef] at h
    cases hsp : splitLast '.' s.data with
    | some p =>
      obtain ⟨n', e'⟩ := p
      rw [hsp] at h
      obtain ⟨h1, h2⟩ := splitLast_spec '.' s.data n' e' hsp
      obtain ⟨rfl, rfl⟩ : n = String.mk n' ∧ e = String.mk e' := by
        refine ⟨?_, ?_⟩ <;> injection h with h3 <;> injection h3
        all_goals simp_all
      constructor
      · apply String.ext
        show n' ++ ['.'] ++ e' = s.data
        rw [h1]
        simp
      · simpa using h2
    | none =>
      rw [hsp] at h
      exact Option.noConfusion h

/-- Witness for C7 (amended) at the two-dot string a.b.c. -/
theorem decomposeFilename_last_dot_witness :
    "a.b" ++ "." ++ "c" = "a.b.c" ∧ "c".data.contains '.' = false :=
  (decomposeFilename_last_dot "a.b.c" (by decide)).2 "a.b" "c" (by decide)

/-! ### C8: a transcoder failure aborts all later clips -/

/-- The argument list of the clip at 0-based position j of the pair list,
when the loop starts with counter nb. -/
def clipCmdAt (infile name ext : String) (na nv ow cp : Bool) (total : Nat)
    (pairs : List (String × String)) (nb j : Nat) : List String :=
  clipCommand infile (clipOutfile name ext total (nb + j))
    (pairs.getD j ("", "")).1 (pairs.getD j ("", "")).2 na nv ow cp

theorem clipCmdAt_cons (infile name ext : String) (na nv ow cp : Bool)
    (total : Nat) (p : String × String) (rest : List (String × String))
    (nb j : Nat) :
    clipCmdAt infile name ext na nv ow cp total rest (nb + 1) j =
      clipCmdAt infile name ext na nv ow cp total (p :: rest) nb (j + 1) := by
  have hidx : nb + 1 + j = nb + (j + 1) := by omega
  simp [clipCmdAt, hidx]

theorem clipCmdAt_zero (infile name ext : String) (na nv ow cp : Bool)
    (total : Nat) (s e : String) (rest : List (String × String)) (nb : Nat) :
    clipCmdAt infile name ext na nv ow cp total ((s, e) :: rest) nb 0 =
      clipCommand infile (clipOutfile name ext total nb) s e na nv ow cp := by
  simp [clipCmdAt]

/-- C8.  If the transcoder invocation for the clip at position i is the
first to exit with a non-zero status, the loop executes exactly the
commands of positions 0 through i, stops, and reports a transcoder error
carrying that exit status: no clip beyond position i is ever invoked. -/
theorem runClips_failure_aborts (exec : List String → Int)
    (infile name ext : String) (na nv ow cp : Bool) (total : Nat)
    (pairs : List (String × String)) (nb i : Nat)
    (hi : i < pairs.length)
    (hfail : exec (clipCmdAt infile name ext na nv ow cp total pairs nb i) ≠ 0)
    (hok : ∀ j, j < i →
      exec (clipCmdAt infile name ext na nv ow cp total pairs nb j) = 0) :
    runClips exec infile name ext na nv ow cp total pairs nb =
      ((List.range (i + 1)).map
         (clipCmdAt infile name ext na nv ow cp total pairs nb),
       .transcoderError
         (exec (clipCmdAt infile name ext na nv ow cp total pairs nb i))) := by
  induction pairs generalizing nb i with
  | nil => simp at hi
  | cons p rest ih =>
    obtain ⟨s, e⟩ := p
    cases i with
    | zero =>
      rw [clipCmdAt_zero] at hfail
      simp only [runClips]
      rw [if_neg hfail]
      simp [List.range_succ, clipCmdAt_zero]
    | succ i =>
      have hi' : i < rest.length := by simpa using hi
      have h0 : exec (clipCommand infile (clipOutfile name ext total nb) s e
          na nv ow cp) = 0 := by
        have h00 := hok 0 (Nat.succ_pos i)
        rwa [clipCmdAt_zero] at h00
      have hr := ih (nb + 1) i hi'
        (by rw [clipCmdAt_cons]; exact hfail)
        (fun j hj => by rw [clipCmdAt_cons]; exact hok (j + 1) (by omega))
      have hfun : (clipCmdAt infile name ext na nv ow cp total ((s, e) :: rest) nb)
            ∘ Nat.succ =
          clipCmdAt infile name ext na nv ow cp total rest (nb + 1) := by
        funext j
        exact (clipCmdAt_cons infile name ext na nv ow cp total (s, e) rest nb j).symm
      simp only [runClips]
      rw [if_pos h0, hr]
      conv_rhs => rw [List.range_succ_eq_map, List.map_cons, List.map_map, hfun,
        clipCmdAt_zero, ← clipCmdAt_cons]

/-- A transcoder that fails exactly on the second numbered output file. -/
def execFailSecond : List String → Int := fun cmd =>
  if cmd.contains "x_02.y" then 1 else 0

/-- Witness for C8: with 3 pairs and a failure on clip 2, only the first
two commands are executed and the status 1 is reported. -/
theorem runClips_failure_aborts_witness :
    runClips execFailSecond "in.mp4" "x" "y" false false false false 3
        [("a", "b"), ("c", "d"), ("e", "f")] 1 =
      ([clipCommand "in.mp4" (clipOutfile "x" "y" 3 1) "a" "b" false false false false,
        clipCommand "in.mp4" (clipOutfile "x" "y" 3 2) "c" "d" false false false false],
       .transcoderError 1) := by
  have h := runClips_failure_aborts execFailSecond "in.mp4" "x" "y"
    false false false false 3 [("a", "b"), ("c", "d"), ("e", "f")] 1 1
    (by decide) (by decide)
    (fun j hj => by
      have hj0 : j = 0 := by omega
      subst hj0
      decide)
  exact h

/-! ### C9: tokens reach the argument list verbatim, unvalidated -/

theorem clipCommand_token_positions (infile outfile s e : String)
    (na nv ow cp : Bool) :
    (clipCommand infile outfile s e na nv ow cp)[6]? = some s ∧
    (clipCommand infile outfile s e na nv ow cp)[8]? = some e := by
  cases na <;> cases nv <;> cases ow <;> cases cp <;> exact ⟨rfl, rfl⟩

theorem runClips_all_ok (exec : List String → Int)
    (infile name ext : String) (na nv ow cp : Bool) (total : Nat)
    (hexec : ∀ cmd, exec cmd = 0) :
    ∀ (pairs : List (String × String)) (nb : Nat),
      runClips exec infile name ext na nv ow cp total pairs nb =
        ((List.range pairs.length).map
           (clipCmdAt infile name ext na nv ow cp total pairs nb), .ok) := by
  intro pairs
  induction pairs with
  | nil => intro nb; simp [runClips]
  | cons p rest ih =>
    obtain ⟨s, e⟩ := p
    intro nb
    have hfun : (clipCmdAt infile name ext na nv ow cp total ((s, e) :: rest) nb)
          ∘ Nat.succ =
        clipCmdAt infile name ext na nv ow cp total rest (nb + 1) := by
      funext j
      exact (clipCmdAt_cons infile name ext na nv ow cp total (s, e) rest nb j).symm
    simp only [runClips]
    rw [if_pos (hexec _), ih (nb + 1)]
    conv_rhs => rw [List.length_cons, List.range_succ_eq_map, List.map_cons,
      List.map_map, hfun, clipCmdAt_zero]

/-- C9.  No syntactic validation is applied to the timestamp tokens: for
every run passing the count check (and name resolution), whatever the
content of the tokens, the k-th executed command carries token 2k
verbatim at argument position 6 (after the -ss flag) and token 2k+1
verbatim at position 8 (after the -to flag). -/
theorem timestamps_passed_verbatim (exec : List String → Int)
    (isdir : String → Bool) (args : Args) (name ext : String)
    (hres : resolveOutput isdir args.infile args.outfile = .ok (name, ext))
    (h2 : 2 ≤ args.timestamps.length) (he : args.timestamps.length % 2 = 0)
    (hexec : ∀ cmd, exec cmd = 0) :
    (mainRun exec isdir args).1.length = args.timestamps.length / 2 ∧
    ∀ k, k < args.timestamps.length / 2 →
      ((mainRun exec isdir args).1.getD k [])[6]? = args.timestamps[2 * k]? ∧
      ((mainRun exec isdir args).1.getD k [])[8]? =
        args.timestamps[2 * k + 1]? := by
  have hval : validateTimestamps args.timestamps = .ok (pairUp args.timestamps) := by
    unfold validateTimestamps
    rw [if_neg (by omega)]
  have hlen : (pairUp args.timestamps).length = args.timestamps.length / 2 :=
    pairUp_length args.timestamps
  have hmain : mainRun exec isdir args =
      ((List.range (pairUp args.timestamps).length).map
         (clipCmdAt args.infile name ext args.noaudio args.novideo
           args.overwrite args.copy (args.timestamps.length / 2)
           (pairUp args.timestamps) 1), .ok) := by
    unfold mainRun
    rw [hval, hres]
    exact runClips_all_ok exec args.infile name ext args.noaudio args.novideo
      args.overwrite args.copy (args.timestamps.length / 2) hexec
      (pairUp args.timestamps) 1
  constructor
  · rw [hmain]
    simp [hlen]
  · intro k hk
    have hk' : k < (pairUp args.timestamps).length := by omega
    have hgetD : ((mainRun exec isdir args).1.getD k []) =
        clipCmdAt args.infile name ext args.noaudio args.novideo
          args.overwrite args.copy (args.timestamps.length / 2)
          (pairUp args.timestamps) 1 k := by
      rw [hmain]
      rw [List.getD_eq_getElem?_getD, List.getElem?_map, List.getElem?_range hk']
      rfl
    obtain ⟨a, ha⟩ : ∃ a, args.timestamps[2 * k]? = some a :=
      ⟨_, List.getElem?_eq_getElem (by omega)⟩
    obtain ⟨b, hb⟩ : ∃ b, args.timestamps[2 * k + 1]? = some b :=
      ⟨_, List.getElem?_eq_getElem (by omega)⟩
    have hpair : (pairUp args.timestamps)[k]? = some (a, b) := by
      rw [pairUp_getElem, ha, hb]
      rfl
    have hpd : (pairUp args.timestamps).getD k ("", "") = (a, b) := by
      rw [List.getD_eq_getElem?_getD, hpair]
      rfl
    rw [hgetD]
    unfold clipCmdAt
    rw [hpd, ha, hb]
    exact clipCommand_token_positions args.infile
      (clipOutfile name ext (args.timestamps.length / 2) (1 + k)) a b
      args.noaudio args.novideo args.overwrite args.copy

/-- Witness for C9: tokens matching no timestamp grammar still appear
verbatim in the executed command. -/
theorem timestamps_passed_verbatim_witness :
    (mainRun (fun _ => 0) (fun _ => false)
        ⟨"in.mp4", none, false, false, false, false, ["garbage", "@@@"]⟩).1.length = 1 ∧
    ((mainRun (fun _ => 0) (fun _ => false)
        ⟨"in.mp4", none, false, false, false, false, ["garbage", "@@@"]⟩).1.getD 0 [])[6]? =
      some "garbage" := by
  have h := timestamps_passed_verbatim (fun _ => 0) (fun _ => false)
    ⟨"in.mp4", none, false, false, false, false, ["garbage", "@@@"]⟩
    "in_clip" "mp4" rfl (by decide) (by decide) (fun _ => rfl)
  exact ⟨h.1, (h.2 0 (by decide)).1⟩

/-! ### C10: distinct clips target distinct output paths -/

/-- The decimal digit characters of a natural number, most significant
first (the pure specification of the digits produced by the core
`Nat.repr`). -/
def decDigits (n : Nat) : List Char :=
  if h : n < 10 then [Nat.digitChar n]
  else decDigits (n / 10) ++ [Nat.digitChar (n % 10)]
decreasing_by exact Nat.div_lt_self (by omega) (by omega)

theorem toDigitsCore_eq_decDigits :
    ∀ (fuel n : Nat) (ds : List Char), n < fuel →
      Nat.toDigitsCore 10 fuel n ds = decDigits n ++ ds := by
  intro fuel
  induction fuel with
  | zero => intro n ds h; omega
  | succ fuel ih =>
    intro n ds h
    simp only [Nat.toDigitsCore]
    by_cases h0 : n / 10 = 0
    · rw [if_pos h0]
      have h10 : n < 10 := by omega
      rw [decDigits, dif_pos h10, Nat.mod_eq_of_lt h10]
      rfl
    · rw [if_neg h0]
      rw [ih (n / 10) (Nat.digitChar (n % 10) :: ds) (by omega)]
      conv_rhs => rw [decDigits, dif_neg (by omega : ¬n < 10)]
      simp

theorem toString_nat_data (n : Nat) : (toString n).data = decDigits n := by
  show (Nat.repr n).data = decDigits n
  rw [Nat.repr, Nat.toDigits, toDigitsCore_eq_decDigits (n + 1) n [] (by omega)]
  simp [List.asString]

/-- Decimal evaluation of a character list: the value accumulated by
reading digit characters left to right. -/
def valOf (l : List Char) : Nat :=
  l.foldl (fun a c => 10 * a + (c.toNat - 48)) 0

theorem digitChar_toNat : ∀ d : Nat, d < 10 → (Nat.digitChar d).toNat = d + 48 := by
  decide

theorem foldl_decDigits (n : Nat) : ∀ a : Nat,
    List.foldl (fun a c => 10 * a + (c.toNat - 48)) a (decDigits n) =
      a * 10 ^ (decDigits n).length + n := by
  induction n using Nat.strong_induction_on with
  | _ n ih =>
    intro a
    by_cases h : n < 10
    · rw [decDigits, dif_pos h]
      simp only [List.foldl_cons, List.foldl_nil, List.length_cons,
        List.length_nil, digitChar_toNat n h]
      have : n + 48 - 48 = n := by omega
      rw [this, pow_one]
      omega
    · rw [decDigits, dif_neg h]
      rw [List.foldl_append]
      rw [ih (n / 10) (Nat.div_lt_self (by omega) (by omega)) a]
      simp only [List.foldl_cons, List.foldl_nil, List.length_append,
        List.length_cons, List.length_nil]
      rw [digitChar_toNat (n % 10) (Nat.mod_lt n (by omega))]
      have h1 : n % 10 + 48 - 48 = n % 10 := by omega
      rw [h1, pow_succ]
      have h2 : 10 * (n / 10) + n % 10 = n := Nat.div_add_mod n 10
      have h3 : 10 * (a * 10 ^ (decDigits (n / 10)).length + n / 10) =
          a * (10 ^ (decDigits (n / 10)).length * 10) + 10 * (n / 10) := by
        ring
      omega

theorem valOf_pad2 (n : Nat) : valOf (pad2 n).data = n := by
  unfold pad2 valOf
  rw [String.data_append]
  show List.foldl _ 0
    (List.replicate (2 - (toString n).length) '0' ++ (toString n).data) = n
  rw [List.foldl_append]
  have hrep : ∀ k : Nat,
      List.foldl (fun a c => 10 * a + (c.toNat - 48)) 0
        (List.replicate k '0') = 0 := by
    intro k
    induction k with
    | zero => rfl
    | succ k ihk =>
      rw [List.replicate_succ, List.foldl_cons]
      simpa using ihk
  rw [hrep, toString_nat_data]
  simpa using foldl_decDigits n 0

theorem pad2_injective {i j : Nat} (h : pad2 i = pad2 j) : i = j := by
  have h1 := congrArg (fun s => valOf s.data) h
  simpa [valOf_pad2] using h1

/-- C10.  Within a run of more than one clip, two distinct 1-based clip
counters within range produce distinct output paths: the numeric
suffixes differ, so no two clips of one run target the same file. -/
theorem clipOutfile_distinct (name ext : String) (total i j : Nat)
    (ht : 1 < total) (hi1 : 1 ≤ i) (hit : i ≤ total) (hj1 : 1 ≤ j)
    (hjt : j ≤ total) (hij : i ≠ j) :
    clipOutfile name ext total i ≠ clipOutfile name ext total j := by
  intro hEq
  apply hij
  apply pad2_injective
  rw [clipOutfile, if_pos ht, clipOutfile, if_pos ht] at hEq
  have hd := congrArg String.data hEq
  simp only [String.data_append, List.append_assoc] at hd
  have h2 := List.append_cancel_left hd
  have h3 := List.append_cancel_left h2
  have h4 := List.append_cancel_right h3
  exact String.ext h4

/-- Witness for C10 at counters 1 and 2 of a 2-clip run. -/
theorem clipOutfile_distinct_witness :
    clipOutfile "movie_clip" "mp4" 2 1 ≠ clipOutfile "movie_clip" "mp4" 2 2 :=
  clipOutfile_distinct "movie_clip" "mp4" 2 1 2 (by decide) (by decide)
    (by decide) (by decide) (by decide) (by decide)
